import Mathlib

/-!
# Verification of the LLM context optimizer (`optimize.py`)

Shallow embedding of the optimization pipeline: token estimation
(`estimate_tokens`), priority scoring (`calculate_priority`), semantic
fingerprinting (`semantic_hash`), deduplication (`deduplicate_messages`),
summarization (`summarize_messages`) and the budget selector
(`optimize_context`).

Modelling conventions:
* Python strings are Lean `String`s; character-level operations
  (lower-casing, whitespace, `\w` word characters, digits) are modelled for
  ASCII text, which is the scope on which the Python and Lean primitives
  agree.
* Python `float` priorities are modelled as `Rat`: every constant in the
  scorer is a multiple of 1/2, so all arithmetic performed by the program
  is exact in both representations.
* `tokens` is a `Nat` (the data model declares it a non-negative integer);
  the token budget `target_tokens` is an `Int`.
* The md5-and-truncate step of `semantic_hash` is modelled as the identity
  on the canonical normalized string (distinct normalized strings are
  assumed to give distinct digests); every property proved here depends
  only on equality of fingerprints, which this abstraction preserves.
-/

namespace Optimizer

/-- ASCII model of Python `str.lower`. -/
def strLower (s : String) : String := String.mk (s.toList.map Char.toLower)

/-- The whitespace characters stripped by Python `str.strip()` /
used by `str.split()` (ASCII scope). -/
def isPySpace (c : Char) : Bool :=
  c = ' ' || c = '\t' || c = '\n' || c = '\x0d' || c = '\x0b' || c = '\x0c'

/-- Python `str.strip()`: remove leading and trailing whitespace. -/
def pyStrip (s : String) : String :=
  String.mk ((((s.toList.dropWhile isPySpace).reverse).dropWhile isPySpace).reverse)

/-- Does the character list `s` start with the pattern `pat`? -/
def startsWithL : List Char → List Char → Bool
  | [], _ => true
  | _ :: _, [] => false
  | p :: ps, c :: cs => p = c && startsWithL ps cs

/-- Python `pat in s`: contiguous-substring containment on character lists. -/
def containsL : List Char → List Char → Bool
  | s, pat =>
    match s with
    | [] => pat.isEmpty
    | _ :: rest => startsWithL pat s || containsL rest pat

/-- Python `pat in s` on strings. -/
def strContains (s pat : String) : Bool := containsL s.toList pat.toList

/-- Python word characters for `\w` (ASCII scope). -/
def isWordChar (c : Char) : Bool := c.isAlphanum || c = '_'

/-- Accumulating scanner behind `wordsOf`: splits into maximal runs of
word characters. The accumulator holds the current run, reversed. -/
def wordsAux : List Char → List Char → List String
  | [], acc => if acc.isEmpty then [] else [String.mk acc.reverse]
  | c :: cs, acc =>
    if isWordChar c then wordsAux cs (c :: acc)
    else if acc.isEmpty then wordsAux cs []
    else String.mk acc.reverse :: wordsAux cs []

/-- Python `re.findall(r'\w+', s)`: all maximal runs of word characters. -/
def wordsOf (s : String) : List String := wordsAux s.toList []

/-- Accumulating scanner behind `splitWsCount`. -/
def splitWsAux : List Char → Bool → Nat
  | [], inRun => if inRun then 1 else 0
  | c :: cs, inRun =>
    if isPySpace c then (if inRun then 1 else 0) + splitWsAux cs false
    else splitWsAux cs true

/-- Python `len(s.split())`: the number of maximal whitespace-separated
runs. -/
def splitWsCount (s : String) : Nat := splitWsAux s.toList false

/-- Number of occurrences of a character (Python `s.count(c)` for a
single-character needle). -/
def countChar (s : String) (c : Char) : Nat := s.toList.count c

/-- Does the string contain a decimal digit (Python `re.search(r'\d+', s)`,
ASCII scope)? -/
def hasDigit (s : String) : Bool := s.toList.any Char.isDigit

/-- Embeds `estimate_tokens`: `len(text) // 4 + len(text.split()) // 2`. -/
def estimate_tokens (text : String) : Nat :=
  text.length / 4 + splitWsCount text / 2

/-- A conversation message (the `Message` dataclass).  `metadata` is
modelled as the optional `(type, source_count)` pair that the summarizer
writes; caller-supplied metadata is opaque to the pipeline. -/
structure Message where
  role : String
  content : String
  timestamp : Option String
  metadata : Option (String × Nat)
  priority : Rat
  tokens : Nat
deriving DecidableEq, Repr

/-- Constructing a `Message`, including `__post_init__`: a token count of
zero (the dataclass default, or an explicitly supplied zero) is replaced by
`estimate_tokens(content)`. -/
def mkMessage (role content : String) (timestamp : Option String)
    (metadata : Option (String × Nat)) (priority : Rat) (tokens : Nat) :
    Message :=
  ⟨role, content, timestamp, metadata, priority,
    if tokens = 0 then estimate_tokens content else tokens⟩

/-- The "high priority" trigger substrings of `calculate_priority`. -/
def highWords : List String :=
  ["decide", "important", "remember", "prefer", "always", "never"]

/-- The "data/result" trigger substrings. -/
def dataWords : List String := ["data", "fact", "result", "conclusion"]

/-- The "problem" trigger substrings. -/
def problemWords : List String := ["error", "bug", "fix", "issue", "problem"]

/-- The "greeting/closing" trigger substrings. -/
def greetWords : List String := ["hello", "hi ", "bye", "thanks", "thank you"]

/-- The short-acknowledgment strings compared against the whole lowercased
content. -/
def ackStrings : List String :=
  ["ok", "okay", "yes", "no", "sure", "got it", "understood"]

/-- Embeds `any(word in content for word in ws)`. -/
def containsAny (content : String) (ws : List String) : Bool :=
  ws.any (fun w => strContains content w)

/-- Python built-in `min(a, b)`: returns `a` when `a <= b`. -/
def pyMin (a b : Rat) : Rat := if a ≤ b then a else b

/-- Python built-in `max(a, b)`: returns `a` when `a >= b`. -/
def pyMax (a b : Rat) : Rat := if b ≤ a then a else b

/-- Embeds `re.search` for a final question mark on the already-stripped content: the stripped
string ends with `?` (no trailing newline can remain after stripping). -/
def endsWithQm (s : String) : Bool :=
  decide (s.toList.getLast? = some '?')

/-- All additive adjustments of `calculate_priority` except the
short-acknowledgment rule, applied to the base value 5.0. -/
def rawPriorityNoAck (msg : Message) : Rat :=
  let content := strLower msg.content
  5 + (if containsAny content highWords then 2 else 0)
    + (if endsWithQm (pyStrip msg.content) then 3/2 else 0)
    + (if containsAny content dataWords then 3/2 else 0)
    + (if containsAny content problemWords then 1 else 0)
    + (if hasDigit content then 1/2 else 0)
    - (if containsAny content greetWords then 2 else 0)
    - (if content.length < 20 then 1 else 0)
    - (if 2 < countChar content '!' then 1/2 else 0)
    + (if msg.role = "system" then 1 else 0)

/-- Embeds `calculate_priority`: base 5.0, the additive rules of the source in
order, then clamping to [1, 10].  The unconditional additions commute, so
the sequential `priority += …` updates of the source are written as one
sum. -/
def calculate_priority (msg : Message) : Rat :=
  let content := strLower msg.content
  let raw : Rat :=
    5 + (if containsAny content highWords then 2 else 0)
      + (if endsWithQm (pyStrip msg.content) then 3/2 else 0)
      + (if containsAny content dataWords then 3/2 else 0)
      + (if containsAny content problemWords then 1 else 0)
      + (if hasDigit content then 1/2 else 0)
      - (if containsAny content greetWords then 2 else 0)
      - (if content ∈ ackStrings then 5/2 else 0)
      - (if content.length < 20 then 1 else 0)
      - (if 2 < countChar content '!' then 1/2 else 0)
      + (if msg.role = "system" then 1 else 0)
  pyMax 1 (pyMin 10 raw)

/-- Ascending stable insertion into a list of strings. -/
def insertAsc (s : String) : List String → List String
  | [] => [s]
  | x :: xs => if x < s then x :: insertAsc s xs else s :: x :: xs

/-- Ascending sort on strings, embedding Python `sorted` (the input below
is duplicate-free, so stability is irrelevant and any correct ascending
sort produces Python's output). -/
def sortStrings : List String → List String
  | [] => []
  | x :: xs => insertAsc x (sortStrings xs)

/-- Embeds `semantic_hash`: lowercase, extract word tokens, remove duplicates,
sort, join with single spaces.  The md5-and-truncate digest of the source
is modelled as the identity on this normalized string. -/
def semantic_hash (text : String) : String :=
  String.intercalate " " (sortStrings (wordsOf (strLower text)).dedup)

/-- The fingerprint key a message is grouped under. -/
def keyOf (m : Message) : String := semantic_hash m.content

/-- Python `max(group, key=lambda m: m.priority)` starting from a first
element: later elements replace the current best only when strictly
greater, so ties keep the earliest. -/
def maxByPriority (m : Message) : List Message → Message
  | [] => m
  | x :: xs => maxByPriority (if m.priority < x.priority then x else m) xs

/-- Appending a message under its key into the insertion-ordered
association list that models the `defaultdict(list)` of
`deduplicate_messages`. -/
def insertGroup : List (String × List Message) → String → Message →
    List (String × List Message)
  | [], h, m => [(h, [m])]
  | (k, g) :: rest, h, m =>
    if k = h then (k, g ++ [m]) :: rest else (k, g) :: insertGroup rest h m

/-- The `hash_groups` dictionary: fold the messages in order, appending
each to its fingerprint's group; key order is first-appearance order. -/
def hashGroups (messages : List Message) : List (String × List Message) :=
  messages.foldl (fun acc m => insertGroup acc (keyOf m) m) []

/-- Placeholder message; never produced (every group is nonempty). -/
def junkMsg : Message := ⟨"", "", none, none, 5, 0⟩

/-- The representative of one group: `max(group, key=priority)`. -/
def groupBest : String × List Message → Message
  | (_, []) => junkMsg
  | (_, m :: rest) => maxByPriority m rest

/-- Embeds `deduplicate_messages`: group by fingerprint, keep the best of each
group.  The `threshold` parameter is accepted and, as in the source,
never used. -/
def deduplicate_messages (messages : List Message) (threshold : Rat) :
    List Message :=
  (hashGroups messages).map groupBest

/-- The "decision" trigger substrings of `summarize_messages`. -/
def decisionWords : List String := ["decide", "will", "going to"]

/-- The "fact" trigger substrings of `summarize_messages`. -/
def factWords : List String := ["fact", "data", "result"]

/-- The `decisions` bucket of `summarize_messages`. -/
def decisionsOf (messages : List Message) : List String :=
  (messages.filter (fun m => containsAny (strLower m.content) decisionWords)).map
    (fun m => m.content)

/-- The `questions` bucket: not a decision, and the content contains `?`. -/
def questionsOf (messages : List Message) : List String :=
  (messages.filter (fun m =>
    !containsAny (strLower m.content) decisionWords &&
      strContains m.content "?")).map (fun m => m.content)

/-- The `facts` bucket: neither a decision nor a question, and the content
contains a fact word. -/
def factsOf (messages : List Message) : List String :=
  (messages.filter (fun m =>
    !containsAny (strLower m.content) decisionWords &&
      !strContains m.content "?" &&
      containsAny (strLower m.content) factWords)).map (fun m => m.content)

/-- Embeds `summarize_messages`: render the three capped buckets as labeled
sections, fall back to a fixed placeholder, and wrap the result in a
synthetic system message (priority 8.0, summary metadata, tokens from
`estimate_tokens` via `__post_init__`). -/
def summarize_messages (messages : List Message) : Message :=
  let decisions := decisionsOf messages
  let facts := factsOf messages
  let questions := questionsOf messages
  let parts :=
    (if decisions.isEmpty then [] else
      ["**Decisions:** " ++ String.intercalate "; " (decisions.take 3)]) ++
    (if facts.isEmpty then [] else
      ["**Key facts:** " ++ String.intercalate "; " (facts.take 3)]) ++
    (if questions.isEmpty then [] else
      ["**Questions:** " ++ String.intercalate "; " (questions.take 2)])
  let summary_text :=
    if parts.isEmpty then "General conversation summary."
    else String.intercalate "\n" parts
  mkMessage "system" ("[SUMMARY] " ++ summary_text) none
    (some ("summary", messages.length)) 8 0

/-- Sum of the `tokens` fields, as an integer (each summand is a cast of a
`Nat`, hence non-negative). -/
def sumTokens (l : List Message) : Int :=
  (l.map (fun m => (m.tokens : Int))).sum

/-- Step 1 of `optimize_context`: `msg.priority = calculate_priority(msg)`,
performed in place on every message. -/
def scoreMsg (m : Message) : Message :=
  { m with priority := calculate_priority m }

/-- Embeds `messages[-preserve_recent:] if preserve_recent > 0 else []`. -/
def recentTier (msgs : List Message) (preserve_recent : Nat) : List Message :=
  if 0 < preserve_recent then msgs.drop (msgs.length - preserve_recent) else []

/-- Embeds `messages[:-preserve_recent] if preserve_recent > 0 else messages`. -/
def oldTier (msgs : List Message) (preserve_recent : Nat) : List Message :=
  if 0 < preserve_recent then msgs.take (msgs.length - preserve_recent) else msgs

/-- Descending stable insertion by priority: a message moves past an
existing element only when that element's priority is strictly smaller,
so equal priorities keep their original relative order. -/
def insertDesc (m : Message) : List Message → List Message
  | [] => [m]
  | x :: xs => if m.priority < x.priority then x :: insertDesc m xs else m :: x :: xs

/-- Embeds `old_filtered.sort(key=lambda m: m.priority, reverse=True)` — the
sort is stable, and a stable descending sort by key has a unique result,
here realized by stable insertion sort. -/
def sortByPriorityDesc : List Message → List Message
  | [] => []
  | x :: xs => insertDesc x (sortByPriorityDesc xs)

/-- The greedy loop of `optimize_context`: walk the candidates in order,
appending a message and adding its tokens to the running total while the
total stays within the target, and stop at the first message that would
exceed it.  Returns the selection together with the final value of
`current_tokens`. -/
def greedyLoop (target : Int) : Int → List Message → List Message × Int
  | cur, [] => ([], cur)
  | cur, m :: rest =>
    if cur + (m.tokens : Int) ≤ target then
      let r := greedyLoop target (cur + (m.tokens : Int)) rest
      (m :: r.1, r.2)
    else ([], cur)

/-- The deduplicated, priority-filtered, priority-sorted old tier
(`old_filtered` after the in-place sort), computed from the scored
messages. -/
def sortedFiltered (msgs : List Message) (preserve_recent : Nat)
    (min_priority : Rat) : List Message :=
  sortByPriorityDesc
    ((deduplicate_messages (oldTier (msgs.map scoreMsg) preserve_recent) (8/10)).filter
      (fun m => min_priority ≤ m.priority))

/-- Embeds `optimized_old` as it stands after the greedy loop (before the
summary fallback). -/
def selectedOld (msgs : List Message) (target_tokens : Int)
    (preserve_recent : Nat) (min_priority : Rat) : List Message :=
  (greedyLoop target_tokens
    (sumTokens (recentTier (msgs.map scoreMsg) preserve_recent))
    (sortedFiltered msgs preserve_recent min_priority)).1

/-- Embeds `optimized_old` after the summary fallback: if the old tier is
non-empty and fewer than half of the filtered candidates were selected,
build a summary of the first 20 sorted candidates and, when
`current_tokens + summary.tokens <= target_tokens`, replace the selection
by the summary followed by its first 10 messages. -/
def optimizedOld (msgs : List Message) (target_tokens : Int)
    (preserve_recent : Nat) (min_priority : Rat) : List Message :=
  let sorted := sortedFiltered msgs preserve_recent min_priority
  let run := greedyLoop target_tokens
    (sumTokens (recentTier (msgs.map scoreMsg) preserve_recent)) sorted
  if oldTier (msgs.map scoreMsg) preserve_recent ≠ [] ∧
      run.1.length < sorted.length / 2 then
    let summary := summarize_messages (sorted.take 20)
    if run.2 + (summary.tokens : Int) ≤ target_tokens then
      summary :: run.1.take 10
    else run.1
  else run.1

/-- Embeds `optimize_context`: empty input short-circuits; otherwise score all
messages in place, split into tiers, and return the (possibly
summary-substituted) old-tier selection followed by the recent tier. -/
def optimize_context (messages : List Message) (target_tokens : Int)
    (preserve_recent : Nat) (min_priority : Rat) : List Message :=
  if messages = [] then []
  else
    optimizedOld messages target_tokens preserve_recent min_priority ++
      recentTier (messages.map scoreMsg) preserve_recent

/-! ## Basic lemmas -/

theorem sumTokens_nil : sumTokens [] = 0 := rfl

theorem sumTokens_cons (m : Message) (l : List Message) :
    sumTokens (m :: l) = (m.tokens : Int) + sumTokens l := rfl

theorem sumTokens_append (l1 l2 : List Message) :
    sumTokens (l1 ++ l2) = sumTokens l1 + sumTokens l2 := by
  simp [sumTokens]

theorem sumTokens_nonneg (l : List Message) : 0 ≤ sumTokens l := by
  apply List.sum_nonneg
  intro x hx
  obtain ⟨m, _, rfl⟩ := List.mem_map.mp hx
  exact Int.natCast_nonneg _

theorem sumTokens_take_le (n : Nat) (l : List Message) :
    sumTokens (l.take n) ≤ sumTokens l := by
  have h : sumTokens (l.take n) + sumTokens (l.drop n) = sumTokens l := by
    rw [← sumTokens_append, List.take_append_drop]
  have := sumTokens_nonneg (l.drop n)
  omega

/-! ## C10: the threshold parameter of `deduplicate_messages` is unused -/

/-- C10 — confirmed.  `deduplicate_messages` never reads its `threshold`
parameter, so its output is identical for any two threshold values. -/
theorem dedup_threshold_irrelevant (msgs : List Message) (t1 t2 : Rat) :
    deduplicate_messages msgs t1 = deduplicate_messages msgs t2 := rfl

/-! ## C7: the priority score is always in [1, 10] -/

/-- Clamping with `pyMax 1 (pyMin 10 ·)` always lands in [1, 10]. -/
theorem pyClamp_mem (x : Rat) :
    1 ≤ pyMax 1 (pyMin 10 x) ∧ pyMax 1 (pyMin 10 x) ≤ 10 := by
  unfold pyMax pyMin
  split_ifs <;> constructor <;> linarith

/-- C7 — confirmed.  For every message — any content string and any role —
`calculate_priority` returns a value in the closed interval [1, 10]: the
raw additive score is clamped by `max(1.0, min(10.0, priority))`. -/
theorem priority_in_range (msg : Message) :
    1 ≤ calculate_priority msg ∧ calculate_priority msg ≤ 10 := by
  unfold calculate_priority
  exact pyClamp_mem _

/-! ## C1: tokens after construction -/

/-- C1 — counterexample.  The message constructed from the non-empty
content `"abc"` with no caller-supplied token count has `tokens = 0` after
construction: `estimate_tokens "abc" = 3 / 4 + 1 / 2 = 0`, so
`__post_init__` leaves the zero sentinel in place. -/
theorem short_content_zero_tokens_cex :
    (mkMessage "user" "abc" none none 5 0).content ≠ "" ∧
      (mkMessage "user" "abc" none none 5 0).tokens = 0 := by
  constructor
  · decide
  · rfl

/-- C1 — amended.  A message constructed with no caller-supplied token
count (or a supplied count of zero) has nonzero `tokens` provided its
content has at least 4 characters or at least 2 whitespace-separated
words; contents shorter than that (such as `"abc"`) legitimately estimate
to zero tokens. -/
theorem tokens_nonzero_of_content_large (role c : String) (ts : Option String)
    (md : Option (String × Nat)) (pr : Rat)
    (h : 4 ≤ c.length ∨ 2 ≤ splitWsCount c) :
    (mkMessage role c ts md pr 0).tokens ≠ 0 := by
  have hmk : (mkMessage role c ts md pr 0).tokens = estimate_tokens c := by
    simp [mkMessage]
  rw [hmk]
  unfold estimate_tokens
  rcases h with h | h
  · have h4 : 1 ≤ c.length / 4 := (Nat.le_div_iff_mul_le (by norm_num)).mpr (by omega)
    omega
  · have h2 : 1 ≤ splitWsCount c / 2 := (Nat.le_div_iff_mul_le (by norm_num)).mpr (by omega)
    omega

/-- C1 — witness for the amended theorem at content `"abcd"`. -/
theorem tokens_nonzero_of_content_large_witness :
    (4 ≤ ("abcd" : String).length ∨ 2 ≤ splitWsCount "abcd") ∧
      (mkMessage "user" "abcd" none none 5 0).tokens ≠ 0 :=
  ⟨Or.inl (by decide),
    tokens_nonzero_of_content_large "user" "abcd" none none 5 (Or.inl (by decide))⟩

/-! ## C3: the short-acknowledgment rule does not trim -/

/-- C3 — counterexample.  For the content `" ok"` the trimmed lowercased
form is `"ok"`, a member of the acknowledgment set, yet the −2.5
adjustment is not applied: the source compares the *untrimmed* lowercased
content against the set, so the priority is 4 (base 5 minus the
short-message rule) rather than 1.5. -/
theorem ack_rule_trim_cex :
    pyStrip (strLower " ok") ∈ ackStrings ∧
      calculate_priority (mkMessage "user" " ok" none none 5 0) = 4 ∧
      calculate_priority (mkMessage "user" " ok" none none 5 0) ≠
        pyMax 1 (pyMin 10 (rawPriorityNoAck (mkMessage "user" " ok" none none 5 0) - 5/2)) := by
  refine ⟨by decide, by with_unfolding_all decide, by with_unfolding_all decide⟩

/-- C3 — amended.  The −2.5 short-acknowledgment adjustment is applied
exactly when the lowercased content, *without any trimming*, is equal to
one of `{ok, okay, yes, no, sure, got it, understood}`; content whose
trimmed lowercase form is in the set but which carries surrounding
whitespace does not receive the adjustment. -/
theorem ack_rule_untrimmed (msg : Message) :
    calculate_priority msg =
      pyMax 1 (pyMin 10 (rawPriorityNoAck msg +
        (if strLower msg.content ∈ ackStrings then -(5/2 : Rat) else 0))) := by
  have hif : (if strLower msg.content ∈ ackStrings then -(5/2 : Rat) else 0)
      = -(if strLower msg.content ∈ ackStrings then (5/2 : Rat) else 0) := by
    by_cases h : strLower msg.content ∈ ackStrings <;> simp [h]
  simp only [calculate_priority, rawPriorityNoAck, hif]
  ring_nf

/-! ## C5: the greedy accumulation step -/

/-- Every step of a putative selection keeps the running total within the
target: `stepsWithin target cur l` holds when walking `l` from running
total `cur` adds each message while staying `≤ target`. -/
def stepsWithin (target : Int) : Int → List Message → Bool
  | _, [] => true
  | cur, m :: ms =>
    decide (cur + (m.tokens : Int) ≤ target) && stepsWithin target (cur + (m.tokens : Int)) ms

theorem greedyLoop_snd (target : Int) (cur : Int) (l : List Message) :
    (greedyLoop target cur l).2 = cur + sumTokens (greedyLoop target cur l).1 := by
  induction l generalizing cur with
  | nil => simp [greedyLoop, sumTokens]
  | cons m ms ih =>
    by_cases h : cur + (m.tokens : Int) ≤ target
    · simp only [greedyLoop, if_pos h, sumTokens_cons, ih (cur + (m.tokens : Int))]
      ring
    · simp [greedyLoop, if_neg h, sumTokens]

theorem greedyLoop_total_le (target : Int) (cur : Int) (l : List Message)
    (h : (greedyLoop target cur l).1 ≠ []) :
    cur + sumTokens (greedyLoop target cur l).1 ≤ target := by
  induction l generalizing cur with
  | nil => simp [greedyLoop] at h
  | cons m ms ih =>
    by_cases hfit : cur + (m.tokens : Int) ≤ target
    · simp only [greedyLoop, if_pos hfit, sumTokens_cons]
      by_cases hrest : (greedyLoop target (cur + (m.tokens : Int)) ms).1 = []
      · rw [hrest, sumTokens_nil]
        omega
      · have := ih (cur + (m.tokens : Int)) hrest
        omega
    · simp [greedyLoop, if_neg hfit] at h

theorem greedyLoop_characterization (target cur : Int) (l : List Message) :
    ∃ rest, l = (greedyLoop target cur l).1 ++ rest ∧
      stepsWithin target cur (greedyLoop target cur l).1 = true ∧
      (rest = [] ∨ ∃ x rest2, rest = x :: rest2 ∧
        target < cur + sumTokens (greedyLoop target cur l).1 + (x.tokens : Int)) := by
  induction l generalizing cur with
  | nil => exact ⟨[], rfl, rfl, Or.inl rfl⟩
  | cons m ms ih =>
    by_cases hfit : cur + (m.tokens : Int) ≤ target
    · obtain ⟨rest, heq, hsteps, hstop⟩ := ih (cur + (m.tokens : Int))
      refine ⟨rest, ?_, ?_, ?_⟩
      · simp only [greedyLoop, if_pos hfit, List.cons_append]
        exact congrArg (m :: ·) heq
      · simp only [greedyLoop, if_pos hfit, stepsWithin, Bool.and_eq_true, decide_eq_true_eq]
        exact ⟨hfit, hsteps⟩
      · rcases hstop with h | ⟨x, rest2, hrest, hgt⟩
        · exact Or.inl h
        · refine Or.inr ⟨x, rest2, hrest, ?_⟩
          simp only [greedyLoop, if_pos hfit, sumTokens_cons]
          omega
    · refine ⟨m :: ms, ?_, ?_, ?_⟩
      · simp [greedyLoop, if_neg hfit]
      · simp [greedyLoop, if_neg hfit, stepsWithin]
      · refine Or.inr ⟨m, ms, ?_, ?_⟩
        · simp [greedyLoop, if_neg hfit]
        · simp only [greedyLoop, if_neg hfit, sumTokens_nil]
          omega

/-- C5 — confirmed.  The greedy accumulation of `optimize_context`: with
the running total starting at the recent tier's token sum, the
priority-sorted filtered list is walked in order; the selection is an
initial prefix whose every step keeps the total within `target_tokens`,
and the walk stops entirely at the first message that would exceed the
budget — everything after that first failing candidate (however small) is
left unselected. -/
theorem greedy_selection_strict (msgs : List Message) (target_tokens : Int)
    (preserve_recent : Nat) (min_priority : Rat) :
    ∃ rest,
      sortedFiltered msgs preserve_recent min_priority =
        selectedOld msgs target_tokens preserve_recent min_priority ++ rest ∧
      stepsWithin target_tokens
        (sumTokens (recentTier (msgs.map scoreMsg) preserve_recent))
        (selectedOld msgs target_tokens preserve_recent min_priority) = true ∧
      (rest = [] ∨ ∃ x rest2, rest = x :: rest2 ∧
        target_tokens <
          sumTokens (recentTier (msgs.map scoreMsg) preserve_recent) +
            sumTokens (selectedOld msgs target_tokens preserve_recent min_priority) +
            (x.tokens : Int)) := by
  obtain ⟨rest, heq, hsteps, hstop⟩ :=
    greedyLoop_characterization target_tokens
      (sumTokens (recentTier (msgs.map scoreMsg) preserve_recent))
      (sortedFiltered msgs preserve_recent min_priority)
  refine ⟨rest, heq, hsteps, ?_⟩
  rcases hstop with h | ⟨x, rest2, hrest, hgt⟩
  · exact Or.inl h
  · exact Or.inr ⟨x, rest2, hrest, hgt⟩

/-! ## C6: the recent tier is always preserved -/

/-- C6 — confirmed.  For every non-empty input and every
`preserve_recent > 0`, the result of `optimize_context` ends with the last
`preserve_recent` input messages (all of them when `preserve_recent`
exceeds the length), in their original relative order; scoring (the
in-place priority recomputation of step 1, applied to every message alike)
is the only change to them — role, content, timestamp, metadata and tokens
are untouched — and the recent tier is never filtered, deduplicated,
truncated or dropped, whatever the target budget. -/
theorem recent_tier_preserved (msgs : List Message) (target_tokens : Int)
    (preserve_recent : Nat) (min_priority : Rat)
    (h1 : msgs ≠ []) (h2 : 0 < preserve_recent) :
    (∃ pre, optimize_context msgs target_tokens preserve_recent min_priority =
        pre ++ (msgs.drop (msgs.length - preserve_recent)).map scoreMsg) ∧
      ∀ m : Message, (scoreMsg m).role = m.role ∧ (scoreMsg m).content = m.content ∧
        (scoreMsg m).timestamp = m.timestamp ∧ (scoreMsg m).metadata = m.metadata ∧
        (scoreMsg m).tokens = m.tokens := by
  constructor
  · refine ⟨optimizedOld msgs target_tokens preserve_recent min_priority, ?_⟩
    unfold optimize_context
    rw [if_neg h1]
    congr 1
    unfold recentTier
    rw [if_pos h2, List.length_map, List.map_drop]
  · intro m
    exact ⟨rfl, rfl, rfl, rfl, rfl⟩

/-- C6 — witness at a one-message conversation with `preserve_recent = 1`
and a zero budget: the recent tier survives even though it exceeds the
budget. -/
theorem recent_tier_preserved_witness :
    (∃ pre, optimize_context [mkMessage "user" "hello there friend" none none 5 0] 0 1 5 =
        pre ++ (([mkMessage "user" "hello there friend" none none 5 0]).drop
          (([mkMessage "user" "hello there friend" none none 5 0]).length - 1)).map scoreMsg) ∧
      ∀ m : Message, (scoreMsg m).role = m.role ∧ (scoreMsg m).content = m.content ∧
        (scoreMsg m).timestamp = m.timestamp ∧ (scoreMsg m).metadata = m.metadata ∧
        (scoreMsg m).tokens = m.tokens :=
  recent_tier_preserved [mkMessage "user" "hello there friend" none none 5 0] 0 1 5
    (by simp) (by decide)

/-! ## C9: the budget binds whenever any non-recent message is kept -/

theorem optimizedOld_nil (target_tokens : Int) (preserve_recent : Nat)
    (min_priority : Rat) :
    optimizedOld [] target_tokens preserve_recent min_priority = [] := by
  have hold : oldTier ([] : List Message) preserve_recent = [] := by
    simp [oldTier]
  have hsorted : sortedFiltered [] preserve_recent min_priority = [] := by
    simp [sortedFiltered, hold, deduplicate_messages, hashGroups, sortByPriorityDesc]
  simp [optimizedOld, hsorted, hold, greedyLoop]

/-- C9 — confirmed.  Whenever the result of `optimize_context` contains at
least one message that is not part of the recent tier (the non-recent part
of the result being exactly `optimizedOld`: greedily selected old-tier
messages and/or the synthetic summary), the token sum of the entire result
is within `target_tokens` — including the fallback-substitution case. -/
theorem budget_bounds_result (msgs : List Message) (target_tokens : Int)
    (preserve_recent : Nat) (min_priority : Rat)
    (h : optimizedOld msgs target_tokens preserve_recent min_priority ≠ []) :
    sumTokens (optimize_context msgs target_tokens preserve_recent min_priority) ≤
      target_tokens := by
  by_cases hm : msgs = []
  · subst hm
    exact absurd (optimizedOld_nil target_tokens preserve_recent min_priority) h
  · unfold optimize_context
    rw [if_neg hm, sumTokens_append]
    simp only [optimizedOld] at h ⊢
    have hsnd := greedyLoop_snd target_tokens
      (sumTokens (recentTier (msgs.map scoreMsg) preserve_recent))
      (sortedFiltered msgs preserve_recent min_priority)
    split_ifs at h ⊢ with hA hB
    · -- fallback triggered and the summary fits
      rw [sumTokens_cons]
      have htake := sumTokens_take_le 10
        (greedyLoop target_tokens
          (sumTokens (recentTier (msgs.map scoreMsg) preserve_recent))
          (sortedFiltered msgs preserve_recent min_priority)).1
      rw [hsnd] at hB
      omega
    · -- fallback triggered but the summary does not fit
      have := greedyLoop_total_le target_tokens
        (sumTokens (recentTier (msgs.map scoreMsg) preserve_recent))
        (sortedFiltered msgs preserve_recent min_priority) h
      omega
    · -- no fallback
      have := greedyLoop_total_le target_tokens
        (sumTokens (recentTier (msgs.map scoreMsg) preserve_recent))
        (sortedFiltered msgs preserve_recent min_priority) h
      omega

/-- C9 — witness: one old message that fits the budget, empty recent
tier. -/
theorem budget_bounds_result_witness :
    optimizedOld [mkMessage "user" "alpha beta gamma delta words" none none 5 0] 1000 0 0 ≠ [] ∧
      sumTokens (optimize_context
        [mkMessage "user" "alpha beta gamma delta words" none none 5 0] 1000 0 0) ≤ 1000 :=
  ⟨by with_unfolding_all decide,
    budget_bounds_result [mkMessage "user" "alpha beta gamma delta words" none none 5 0] 1000 0 0
      (by with_unfolding_all decide)⟩

/-! ## C2: the fallback substitution condition -/

/-- Four old-tier messages with equal priorities and distinct
fingerprints; the first fills the whole budget of 11, so the greedy step
selects exactly one of four candidates and the fallback is considered. -/
def cexFallbackA : List Message :=
  [mkMessage "user" "alpha one" none none 5 11,
   mkMessage "user" "alpha two" none none 5 1,
   mkMessage "user" "alpha three" none none 5 1,
   mkMessage "user" "alpha four" none none 5 1]

/-- C2 — counterexample.  With `cexFallbackA`, `target_tokens = 11`,
`preserve_recent = 0`, `min_priority = 0`: the fallback preconditions hold
(old tier non-empty, 1 selected < 4 / 2 filtered) and the recent-tier
token sum (0) plus the summary's tokens (11) is within the target, yet the
code does **not** substitute the summary: its check uses the running total
`current_tokens` (recent plus already-selected tokens, 11), and
11 + 11 > 11, so the result is the bare greedy selection. -/
theorem fallback_recent_sum_cex :
    oldTier (cexFallbackA.map scoreMsg) 0 ≠ [] ∧
      (selectedOld cexFallbackA 11 0 0).length < (sortedFiltered cexFallbackA 0 0).length / 2 ∧
      sumTokens (recentTier (cexFallbackA.map scoreMsg) 0) +
        ((summarize_messages ((sortedFiltered cexFallbackA 0 0).take 20)).tokens : Int) ≤ 11 ∧
      optimize_context cexFallbackA 11 0 0 ≠
        summarize_messages ((sortedFiltered cexFallbackA 0 0).take 20) ::
          (selectedOld cexFallbackA 11 0 0).take 10 ++ recentTier (cexFallbackA.map scoreMsg) 0 := by
  refine ⟨by with_unfolding_all decide, by with_unfolding_all decide,
    by with_unfolding_all decide, by with_unfolding_all decide⟩

/-- C2 — amended.  Under the fallback preconditions (non-empty old tier,
selected count below half the filtered count), the selection is replaced
by the summary prepended to at most the first 10 greedily-selected
messages if and only if the **running total** — recent-tier tokens plus
the tokens of the already-selected old-tier messages — plus the summary's
token count is within `target_tokens` (the source checks
`current_tokens + summary.tokens <= target_tokens`, not the recent-tier
sum alone). -/
theorem fallback_running_total (msgs : List Message) (target_tokens : Int)
    (preserve_recent : Nat) (min_priority : Rat)
    (h1 : oldTier (msgs.map scoreMsg) preserve_recent ≠ [])
    (h2 : (selectedOld msgs target_tokens preserve_recent min_priority).length <
      (sortedFiltered msgs preserve_recent min_priority).length / 2)
    (h3 : msgs ≠ []) :
    optimize_context msgs target_tokens preserve_recent min_priority =
      (if sumTokens (recentTier (msgs.map scoreMsg) preserve_recent) +
            sumTokens (selectedOld msgs target_tokens preserve_recent min_priority) +
            ((summarize_messages
              ((sortedFiltered msgs preserve_recent min_priority).take 20)).tokens : Int) ≤
            target_tokens
       then summarize_messages
              ((sortedFiltered msgs preserve_recent min_priority).take 20) ::
            (selectedOld msgs target_tokens preserve_recent min_priority).take 10
       else selectedOld msgs target_tokens preserve_recent min_priority) ++
        recentTier (msgs.map scoreMsg) preserve_recent := by
  unfold optimize_context
  rw [if_neg h3]
  congr 1
  simp only [optimizedOld]
  rw [if_pos ⟨h1, h2⟩]
  rw [greedyLoop_snd]
  rfl

/-- C2 — witness for the amended theorem: two over-budget candidates,
nothing selected, the summary alone fits, so the substitution fires and
the result is exactly the summary message. -/
theorem fallback_running_total_witness :
    optimize_context
        [mkMessage "user" "alpha one" none none 5 100,
         mkMessage "user" "alpha two" none none 5 100] 11 0 0 =
      (if sumTokens (recentTier (([mkMessage "user" "alpha one" none none 5 100,
              mkMessage "user" "alpha two" none none 5 100]).map scoreMsg) 0) +
            sumTokens (selectedOld [mkMessage "user" "alpha one" none none 5 100,
              mkMessage "user" "alpha two" none none 5 100] 11 0 0) +
            ((summarize_messages
              ((sortedFiltered [mkMessage "user" "alpha one" none none 5 100,
                mkMessage "user" "alpha two" none none 5 100] 0 0).take 20)).tokens : Int) ≤ 11
       then summarize_messages
              ((sortedFiltered [mkMessage "user" "alpha one" none none 5 100,
                mkMessage "user" "alpha two" none none 5 100] 0 0).take 20) ::
            (selectedOld [mkMessage "user" "alpha one" none none 5 100,
              mkMessage "user" "alpha two" none none 5 100] 11 0 0).take 10
       else selectedOld [mkMessage "user" "alpha one" none none 5 100,
              mkMessage "user" "alpha two" none none 5 100] 11 0 0) ++
        recentTier (([mkMessage "user" "alpha one" none none 5 100,
          mkMessage "user" "alpha two" none none 5 100]).map scoreMsg) 0 :=
  fallback_running_total
    [mkMessage "user" "alpha one" none none 5 100,
     mkMessage "user" "alpha two" none none 5 100] 11 0 0
    (by with_unfolding_all decide) (by with_unfolding_all decide) (by simp)

/-! ## C8: fingerprint invariance under word set equality -/

theorem insertAsc_perm (s : String) (l : List String) :
    List.Perm (insertAsc s l) (s :: l) := by
  induction l with
  | nil => exact List.Perm.refl _
  | cons x xs ih =>
    by_cases hx : x < s
    · rw [insertAsc, if_pos hx]
      exact (ih.cons x).trans (List.Perm.swap s x xs)
    · rw [insertAsc, if_neg hx]

theorem sortStrings_perm (l : List String) : List.Perm (sortStrings l) l := by
  induction l with
  | nil => exact List.Perm.refl _
  | cons x xs ih => exact (insertAsc_perm x (sortStrings xs)).trans (ih.cons x)

theorem insertAsc_sorted (s : String) (l : List String)
    (h : l.Sorted (· ≤ ·)) : (insertAsc s l).Sorted (· ≤ ·) := by
  induction l with
  | nil => exact List.sorted_singleton s
  | cons x xs ih =>
    obtain ⟨hxall, hxs⟩ := List.sorted_cons.mp h
    by_cases hx : x < s
    · rw [insertAsc, if_pos hx]
      refine List.sorted_cons.mpr ⟨?_, ih hxs⟩
      intro b hb
      rcases List.mem_cons.mp ((insertAsc_perm s xs).mem_iff.mp hb) with hb | hb
      · exact hb ▸ le_of_lt hx
      · exact hxall b hb
    · rw [insertAsc, if_neg hx]
      refine List.sorted_cons.mpr ⟨?_, h⟩
      intro b hb
      rcases List.mem_cons.mp hb with hb | hb
      · exact hb ▸ le_of_not_lt hx
      · exact le_trans (le_of_not_lt hx) (hxall b hb)

theorem sortStrings_sorted (l : List String) : (sortStrings l).Sorted (· ≤ ·) := by
  induction l with
  | nil => exact List.sorted_nil
  | cons x xs ih => exact insertAsc_sorted x (sortStrings xs) ih

/-- C8 — confirmed.  `semantic_hash` is invariant under word reordering,
word repetition and letter case: any two texts with the same set of
lowercased word tokens receive the same fingerprint, because the token
list is deduplicated, sorted and joined into a canonical string before
digesting. -/
theorem semantic_hash_word_sets (t1 t2 : String)
    (h : (wordsOf (strLower t1)).toFinset = (wordsOf (strLower t2)).toFinset) :
    semantic_hash t1 = semantic_hash t2 := by
  unfold semantic_hash
  congr 1
  have nd1 : (sortStrings (wordsOf (strLower t1)).dedup).Nodup :=
    ((sortStrings_perm _).nodup_iff).mpr (List.nodup_dedup _)
  have nd2 : (sortStrings (wordsOf (strLower t2)).dedup).Nodup :=
    ((sortStrings_perm _).nodup_iff).mpr (List.nodup_dedup _)
  refine List.eq_of_perm_of_sorted ?_ (sortStrings_sorted _) (sortStrings_sorted _)
  refine (List.perm_ext_iff_of_nodup nd1 nd2).mpr ?_
  intro a
  rw [(sortStrings_perm _).mem_iff, (sortStrings_perm _).mem_iff,
    List.mem_dedup, List.mem_dedup, ← List.mem_toFinset, h, List.mem_toFinset]

/-- C8 — witness: `fingerprint("a b a") == fingerprint("b a")`. -/
theorem semantic_hash_word_sets_witness :
    (wordsOf (strLower "a b a")).toFinset = (wordsOf (strLower "b a")).toFinset ∧
      semantic_hash "a b a" = semantic_hash "b a" :=
  ⟨by with_unfolding_all decide,
    semantic_hash_word_sets "a b a" "b a" (by with_unfolding_all decide)⟩

/-! ## C4: deduplication keeps the first maximal-priority message of each
fingerprint group, in first-appearance order -/

/-- First-occurrence deduplication of a list of keys: the order of first
appearances, each key once. -/
def firstDedup : List String → List String
  | [] => []
  | x :: xs => x :: (firstDedup xs).filter (fun y => y ≠ x)

/-- The first element of `l` whose priority is maximal in `l` (the
declarative description of Python's `max(l, key=priority)` with its
first-occurrence tie-break). -/
def pickFirstMax (l : List Message) : Message :=
  match l.find? (fun m => l.all (fun m2 => m2.priority ≤ m.priority)) with
  | some m => m
  | none => junkMsg

theorem firstDedup_mem (L : List String) (x : String) :
    x ∈ firstDedup L ↔ x ∈ L := by
  induction L with
  | nil => simp [firstDedup]
  | cons y L ih =>
    by_cases hxy : x = y
    · subst hxy
      simp [firstDedup]
    · simp [firstDedup, List.mem_filter, hxy, ih]

theorem firstDedup_nodup (L : List String) : (firstDedup L).Nodup := by
  induction L with
  | nil => exact List.nodup_nil
  | cons y L ih =>
    refine List.Nodup.cons ?_ (ih.filter _)
    intro hy
    have := (List.mem_filter.mp hy).2
    simp at this

theorem firstDedup_snoc (L : List String) (k : String) :
    firstDedup (L ++ [k]) = firstDedup L ++ (if k ∈ L then [] else [k]) := by
  induction L with
  | nil => simp [firstDedup]
  | cons x L ih =>
    simp only [List.cons_append, firstDedup, List.append_eq, ih, List.filter_append]
    by_cases hkx : k = x
    · subst hkx
      by_cases hkL : k ∈ L <;> simp [hkL, List.mem_cons]
    · by_cases hkL : k ∈ L <;>
        simp [hkL, hkx, List.mem_cons, Ne.symm hkx]

theorem insertGroup_of_newKey (L : List (String × List Message)) (k : String)
    (m : Message) (h : ∀ p ∈ L, p.1 ≠ k) :
    insertGroup L k m = L ++ [(k, [m])] := by
  induction L with
  | nil => rfl
  | cons p rest ih =>
    obtain ⟨k0, g⟩ := p
    have hk0 : k0 ≠ k := h (k0, g) (List.mem_cons_self _ _)
    rw [insertGroup, if_neg hk0, List.cons_append]
    exact congrArg _ (ih (fun q hq => h q (List.mem_cons_of_mem _ hq)))

theorem insertGroup_of_existingKey (L1 : List (String × List Message))
    (k : String) (g : List Message) (L2 : List (String × List Message))
    (m : Message) (h : ∀ p ∈ L1, p.1 ≠ k) :
    insertGroup (L1 ++ (k, g) :: L2) k m = L1 ++ (k, g ++ [m]) :: L2 := by
  induction L1 with
  | nil => simp [insertGroup]
  | cons p rest ih =>
    obtain ⟨k0, g0⟩ := p
    have hk0 : k0 ≠ k := h (k0, g0) (List.mem_cons_self _ _)
    simp only [List.cons_append, insertGroup, if_neg hk0]
    exact congrArg _ (ih (fun q hq => h q (List.mem_cons_of_mem _ hq)))

theorem hashGroups_snoc (ms : List Message) (m : Message) :
    hashGroups (ms ++ [m]) = insertGroup (hashGroups ms) (keyOf m) m := by
  simp [hashGroups, List.foldl_append]

theorem filter_key_nil (ms : List Message) (k : String)
    (h : k ∉ ms.map keyOf) :
    ms.filter (fun m => keyOf m = k) = [] := by
  refine List.filter_eq_nil_iff.mpr ?_
  intro m hm
  simp only [decide_eq_true_eq]
  intro hk
  exact h (List.mem_map.mpr ⟨m, hm, hk⟩)

theorem filter_key_snoc_ne (ms : List Message) (m : Message) (k : String)
    (h : keyOf m ≠ k) :
    (ms ++ [m]).filter (fun x => keyOf x = k) =
      ms.filter (fun x => keyOf x = k) := by
  rw [List.filter_append]
  simp [List.filter, h]

theorem filter_key_snoc_eq (ms : List Message) (m : Message) :
    (ms ++ [m]).filter (fun x => keyOf x = keyOf m) =
      ms.filter (fun x => keyOf x = keyOf m) ++ [m] := by
  rw [List.filter_append]
  simp [List.filter]

/-- The `hash_groups` dictionary is exactly: keys in first-appearance
order, each paired with the sublist of messages carrying that key, in
input order. -/
theorem hashGroups_eq (ms : List Message) :
    hashGroups ms =
      (firstDedup (ms.map keyOf)).map
        (fun k => (k, ms.filter (fun m => keyOf m = k))) := by
  induction ms using List.reverseRecOn with
  | nil => rfl
  | append_singleton ms m ih =>
    rw [hashGroups_snoc, ih]
    have hmap : (ms ++ [m]).map keyOf = ms.map keyOf ++ [keyOf m] := by simp
    by_cases hk : keyOf m ∈ ms.map keyOf
    · -- the fingerprint already has a group: append `m` to it
      obtain ⟨s, t, hst⟩ := List.append_of_mem ((firstDedup_mem _ _).mpr hk)
      have hnd := firstDedup_nodup (ms.map keyOf)
      rw [hst] at hnd
      have hks : keyOf m ∉ s := fun hmem =>
        (List.nodup_append.mp hnd).2.2 hmem (List.mem_cons_self _ _)
      have hkt : keyOf m ∉ t :=
        (List.nodup_cons.mp (List.nodup_append.mp hnd).2.1).1
      rw [hmap, firstDedup_snoc, if_pos hk, List.append_nil, hst]
      simp only [List.map_append, List.map_cons]
      rw [insertGroup_of_existingKey]
      · congr 1
        · refine List.map_congr_left (fun k' hk' => ?_)
          have hne : keyOf m ≠ k' := fun hEq => hks (hEq ▸ hk')
          rw [filter_key_snoc_ne ms m k' hne]
        · congr 1
          · rw [filter_key_snoc_eq]
          · refine List.map_congr_left (fun k' hk' => ?_)
            have hne : keyOf m ≠ k' := fun hEq => hkt (hEq ▸ hk')
            rw [filter_key_snoc_ne ms m k' hne]
      · intro p hp
        obtain ⟨k', hk', rfl⟩ := List.mem_map.mp hp
        exact fun hEq => hks (hEq ▸ hk')
    · -- a new fingerprint: a fresh singleton group is appended at the end
      rw [insertGroup_of_newKey]
      · rw [hmap, firstDedup_snoc, if_neg hk, List.map_append]
        congr 1
        · refine List.map_congr_left (fun k' hk' => ?_)
          have hne : keyOf m ≠ k' := fun hEq =>
            hk (hEq ▸ (firstDedup_mem _ _).mp hk')
          rw [filter_key_snoc_ne ms m k' hne]
        · simp only [List.map_cons, List.map_nil]
          rw [filter_key_snoc_eq, filter_key_nil ms (keyOf m) hk, List.nil_append]
      · intro p hp
        obtain ⟨k', hk', rfl⟩ := List.mem_map.mp hp
        exact fun hEq => hk (hEq ▸ (firstDedup_mem _ _).mp hk')

/-- Python's `max` with a key: the result splits its input into a strict
prefix of strictly smaller priorities, the chosen element, and a suffix,
and dominates every element. -/
theorem maxByPriority_split (t : List Message) (h : Message) :
    ∃ l1 l2, h :: t = l1 ++ maxByPriority h t :: l2 ∧
      (∀ x ∈ l1, x.priority < (maxByPriority h t).priority) ∧
      (∀ x ∈ h :: t, x.priority ≤ (maxByPriority h t).priority) := by
  induction t generalizing h with
  | nil =>
    exact ⟨[], [], rfl, by simp, by simp [maxByPriority]⟩
  | cons x xs ih =>
    by_cases hx : h.priority < x.priority
    · have hM : maxByPriority h (x :: xs) = maxByPriority x xs := by
        simp [maxByPriority, hx]
      obtain ⟨l1, l2, heq, hlt, hle⟩ := ih x
      have hxM : x.priority ≤ (maxByPriority x xs).priority :=
        hle x (List.mem_cons_self _ _)
      refine ⟨h :: l1, l2, ?_, ?_, ?_⟩
      · rw [hM, List.cons_append, ← heq]
      · intro y hy
        rw [hM]
        rcases List.mem_cons.mp hy with rfl | hy
        · exact lt_of_lt_of_le hx hxM
        · exact hlt y hy
      · intro y hy
        rw [hM]
        rcases List.mem_cons.mp hy with rfl | hy
        · exact le_of_lt (lt_of_lt_of_le hx hxM)
        · exact hle y hy
    · have hM : maxByPriority h (x :: xs) = maxByPriority h xs := by
        simp [maxByPriority, hx]
      obtain ⟨l1, l2, heq, hlt, hle⟩ := ih h
      cases l1 with
      | nil =>
        have heq2 : h :: xs = maxByPriority h xs :: l2 := by simpa using heq
        obtain ⟨hMh, _⟩ := List.cons.inj heq2
        refine ⟨[], x :: xs, ?_, by simp, ?_⟩
        · rw [hM, ← hMh]
          rfl
        · intro y hy
          rw [hM, ← hMh]
          rcases List.mem_cons.mp hy with rfl | hy
          · exact le_refl _
          · rcases List.mem_cons.mp hy with rfl | hy
            · exact le_of_not_lt hx
            · have := hle y (List.mem_cons_of_mem _ hy)
              rwa [← hMh] at this
      | cons a l1 =>
        have heq2 : h :: xs = a :: (l1 ++ maxByPriority h xs :: l2) := by
          rw [List.cons_append] at heq
          exact heq
        obtain ⟨hah, hxs⟩ := List.cons.inj heq2
        subst hah
        have hhM : h.priority < (maxByPriority h xs).priority :=
          hlt h (List.mem_cons_self _ _)
        refine ⟨h :: x :: l1, l2, ?_, ?_, ?_⟩
        · rw [hM, List.cons_append, List.cons_append]
          exact congrArg (h :: ·) (congrArg (x :: ·) hxs)
        · intro y hy
          rw [hM]
          rcases List.mem_cons.mp hy with rfl | hy
          · exact hhM
          · rcases List.mem_cons.mp hy with rfl | hy
            · exact lt_of_le_of_lt (le_of_not_lt hx) hhM
            · exact hlt y (List.mem_cons_of_mem _ hy)
        · intro y hy
          rw [hM]
          rcases List.mem_cons.mp hy with rfl | hy
          · exact le_of_lt hhM
          · rcases List.mem_cons.mp hy with rfl | hy
            · exact le_trans (le_of_not_lt hx) (le_of_lt hhM)
            · exact hle y (List.mem_cons_of_mem _ hy)

theorem find?_first (p : Message → Bool) (l1 : List Message) (r : Message)
    (l2 : List Message) (h1 : ∀ x ∈ l1, p x = false) (h2 : p r = true) :
    (l1 ++ r :: l2).find? p = some r := by
  induction l1 with
  | nil => simpa using List.find?_cons_of_pos l2 h2
  | cons a l1 ih =>
    rw [List.cons_append,
      List.find?_cons_of_neg _ (by simp [h1 a (List.mem_cons_self _ _)])]
    exact ih (fun x hx => h1 x (List.mem_cons_of_mem _ hx))

theorem pickFirstMax_cons (h : Message) (t : List Message) :
    pickFirstMax (h :: t) = maxByPriority h t := by
  obtain ⟨l1, l2, heq, hlt, hle⟩ := maxByPriority_split t h
  rw [heq] at hle
  unfold pickFirstMax
  rw [heq]
  rw [find?_first _ l1 _ l2 ?negAll ?posAll]
  case negAll =>
    intro x hx
    refine List.all_eq_false.mpr ?_
    refine ⟨maxByPriority h t, ?_, ?_⟩
    · exact List.mem_append.mpr (Or.inr (List.mem_cons_self _ _))
    · simpa using not_le.mpr (hlt x hx)
  case posAll =>
    refine List.all_eq_true.mpr ?_
    intro m2 hm2
    simpa using hle m2 hm2

theorem mem_filter_key (ms : List Message) (k : String) (x : Message)
    (hx : x ∈ ms.filter (fun m => keyOf m = k)) : keyOf x = k := by
  have := (List.mem_filter.mp hx).2
  simpa using this

theorem filter_key_ne_nil (ms : List Message) (k : String)
    (h : k ∈ ms.map keyOf) : ms.filter (fun m => keyOf m = k) ≠ [] := by
  obtain ⟨m, hm, rfl⟩ := List.mem_map.mp h
  exact List.ne_nil_of_mem (List.mem_filter.mpr ⟨hm, by simp⟩)

/-- C4 — confirmed.  For every input list (and every `threshold`, which is
ignored), `deduplicate_messages` returns exactly one representative per
distinct fingerprint, in first-appearance order of the fingerprints: the
representative of each group is the **first** message of the group
attaining the group's maximum priority (`pickFirstMax` is `find?` for an
element dominating its whole group, so ties on the maximum keep the
earliest message in input order), and the list of fingerprints of the
output is exactly the duplicate-free first-appearance key sequence. -/
theorem dedup_first_max_per_fingerprint (msgs : List Message) (threshold : Rat) :
    deduplicate_messages msgs threshold =
      (firstDedup (msgs.map keyOf)).map
        (fun k => pickFirstMax (msgs.filter (fun m => keyOf m = k))) ∧
      (deduplicate_messages msgs threshold).map keyOf =
        firstDedup (msgs.map keyOf) := by
  have hchar : deduplicate_messages msgs threshold =
      (firstDedup (msgs.map keyOf)).map
        (fun k => pickFirstMax (msgs.filter (fun m => keyOf m = k))) := by
    unfold deduplicate_messages
    rw [hashGroups_eq, List.map_map]
    refine List.map_congr_left (fun k hk => ?_)
    have hne : msgs.filter (fun m => keyOf m = k) ≠ [] :=
      filter_key_ne_nil msgs k ((firstDedup_mem _ _).mp hk)
    obtain ⟨h, t, hht⟩ : ∃ h t, msgs.filter (fun m => keyOf m = k) = h :: t := by
      cases hfib : msgs.filter (fun m => keyOf m = k) with
      | nil => exact absurd hfib hne
      | cons h t => exact ⟨h, t, rfl⟩
    simp only [Function.comp_apply, hht, groupBest, pickFirstMax_cons]
  refine ⟨hchar, ?_⟩
  rw [hchar, List.map_map]
  have hid : ∀ k ∈ firstDedup (msgs.map keyOf),
      (keyOf ∘ fun k => pickFirstMax (msgs.filter (fun m => keyOf m = k))) k = k := by
    intro k hk
    have hne : msgs.filter (fun m => keyOf m = k) ≠ [] :=
      filter_key_ne_nil msgs k ((firstDedup_mem _ _).mp hk)
    obtain ⟨h, t, hht⟩ : ∃ h t, msgs.filter (fun m => keyOf m = k) = h :: t := by
      cases hfib : msgs.filter (fun m => keyOf m = k) with
      | nil => exact absurd hfib hne
      | cons h t => exact ⟨h, t, rfl⟩
    simp only [Function.comp_apply, hht, pickFirstMax_cons]
    obtain ⟨l1, l2, heq, _, _⟩ := maxByPriority_split t h
    have hmem : maxByPriority h t ∈ h :: t := by
      rw [heq]
      exact List.mem_append.mpr (Or.inr (List.mem_cons_self _ _))
    exact mem_filter_key msgs k _ (hht ▸ hmem)
  rw [List.map_congr_left hid]
  simp

end Optimizer
